import Mathlib

/-!
Verification of the `string_colorization` crate (src/src/lib.rs).

Shallow embedding conventions:
* Rust `&str` values are modelled as `List Char` together with the memory range
  `[base, base + length)` of their backing storage, since the library matches
  rules to the input by comparing raw addresses (`mem_dir_of_string`).
* The `u16` bitmask `style_const` is modelled as `Nat`; every value the code can
  build stays below `2 ^ 9` (bits 0..8), so `u16` wrap-around never occurs.
* The second module copy `src/src/string_colorization/mod.rs` is never declared
  (`lib.rs` has no `mod string_colorization;`), so it is dead code; the compiled
  crate is `lib.rs` and that is what is embedded here.
-/

namespace StringColorization

/-- `colored::Color`: 16 named colors plus an explicit RGB triple. -/
inductive Color
  | Black | Red | Green | Yellow | Blue | Magenta | Cyan | White
  | BrightBlack | BrightRed | BrightGreen | BrightYellow
  | BrightBlue | BrightMagenta | BrightCyan | BrightWhite
  | TrueColor (r g b : Nat)
deriving DecidableEq

/-- `colored::Styles`: 8 visual attributes plus the Clear marker. -/
inductive Styles
  | Clear | Bold | Dimmed | Underline | Reversed | Italic | Blink | Hidden | Strikethrough
deriving DecidableEq

/-- `sytle_to_index` (sic) from lib.rs:189-201: bit index of each style. -/
def sytle_to_index : Styles → Nat
  | .Clear => 0
  | .Bold => 1
  | .Dimmed => 2
  | .Underline => 3
  | .Reversed => 4
  | .Italic => 5
  | .Blink => 6
  | .Hidden => 7
  | .Strikethrough => 8

/-- The `STYLES` constant array from lib.rs:186-187, in source order. -/
def STYLES : List Styles :=
  [.Clear, .Bold, .Dimmed, .Underline, .Reversed, .Italic, .Blink, .Hidden, .Strikethrough]

/-- The `Colorizer` struct from lib.rs:137-184: optional foreground, optional
background and the optional `u16` style bitmask. -/
structure Colorizer where
  foreground : Option Color
  background : Option Color
  style_const : Option Nat
deriving DecidableEq

/-- `Colorizer::new` (lib.rs:280-282). -/
def Colorizer.new : Colorizer := ⟨none, none, none⟩

/-- `Colorizer::foreground` builder (lib.rs:299-302). -/
def Colorizer.withForeground (c : Colorizer) (color : Color) : Colorizer :=
  { c with foreground := some color }

/-- `Colorizer::background` builder (lib.rs:320-323). -/
def Colorizer.withBackground (c : Colorizer) (color : Color) : Colorizer :=
  { c with background := some color }

/-- `Colorizer::style` builder (lib.rs:341-360): `Clear` sets the bitmask to
exactly the Clear bit and erases both colors; any other style initialises the
bitmask to `0` when absent and ORs its bit in. -/
def Colorizer.style (c : Colorizer) (s : Styles) : Colorizer :=
  match s with
  | .Clear =>
      { c with style_const := some (1 <<< sytle_to_index .Clear),
               foreground := none, background := none }
  | s =>
      { c with style_const := some ((c.style_const.getD 0) ||| (1 <<< sytle_to_index s)) }

/-- `Colorizer::join_with` (lib.rs:420-451): the merge operation, `new` wins. -/
def Colorizer.join_with (self : Colorizer) (new : Colorizer) : Colorizer :=
  let s1 := if new.foreground.isSome then { self with foreground := new.foreground } else self
  let s2 := if new.background.isSome then { s1 with background := new.background } else s1
  match s2.style_const, new.style_const with
  | some this_style_const, some other_style_const =>
      let is_clear_style :=
        (other_style_const &&& (1 <<< sytle_to_index .Clear)) == (1 <<< sytle_to_index .Clear)
      if is_clear_style then
        { s2 with style_const := new.style_const,
                  foreground := new.foreground, background := new.background }
      else
        { s2 with style_const := some (this_style_const ||| other_style_const) }
  | _, _ =>
      if new.style_const.isSome then { s2 with style_const := new.style_const } else s2

/-- `Colorizer::get_styles` (lib.rs:454-458): the styles whose bit is set, in
`STYLES` order. -/
def Colorizer.get_styles (c : Colorizer) : List Styles :=
  STYLES.filter fun style =>
    c.style_const.isSome &&
      ((c.style_const.getD 0 &&& (1 <<< sytle_to_index style)) == (1 <<< sytle_to_index style))

/-! ### Renderer

`Colorizer::apply` (lib.rs:481-504) delegates the escape emission to the
external `colored` crate (`Colorize::color / on_color / bold / ...` followed by
`Display`), which is not part of this repository's sources. -/

/-- The ANSI escape character `0x1B`. -/
def escChar : Char := Char.ofNat 27

/-- Modelled from the spec: the external `colored` crate's start sequence for a
single color or style wrap is `ESC [ code m` (§4.2; pinned by the doc-test
outputs in lib.rs, e.g. `"\x1B[31mRed foreground\x1B[0m"`). -/
def escSeq (code : List Char) : List Char := escChar :: '[' :: code ++ ['m']

/-- Modelled from the spec: the reset sequence `ESC [ 0 m` the external
`colored` crate appends after every wrap. -/
def resetSeq : List Char := escSeq ['0']

/-- Decimal digits of `n`, accumulator style with structural fuel (the fuel
`n` itself always suffices), as Rust's `Display` for integers renders them
(helper for true-color escape codes). -/
def natCharsAux : Nat → Nat → List Char → List Char
  | 0, _, acc => acc
  | _ + 1, 0, acc => acc
  | fuel + 1, n + 1, acc =>
      natCharsAux fuel ((n + 1) / 10) (Char.ofNat (48 + (n + 1) % 10) :: acc)

/-- Decimal rendering of `n`. -/
def natChars (n : Nat) : List Char :=
  match n with
  | 0 => ['0']
  | n + 1 => natCharsAux (n + 1) (n + 1) []

/-- Modelled from the spec: foreground color codes of the external `colored`
crate (`Color::to_fg_str`), pinned by the doc-tests in lib.rs (`[31m` for Red,
`[38;2;r;g;bm` for true color, `[37m` for White, ...). -/
def fgCode : Color → List Char
  | .Black => ['3', '0']
  | .Red => ['3', '1']
  | .Green => ['3', '2']
  | .Yellow => ['3', '3']
  | .Blue => ['3', '4']
  | .Magenta => ['3', '5']
  | .Cyan => ['3', '6']
  | .White => ['3', '7']
  | .BrightBlack => ['9', '0']
  | .BrightRed => ['9', '1']
  | .BrightGreen => ['9', '2']
  | .BrightYellow => ['9', '3']
  | .BrightBlue => ['9', '4']
  | .BrightMagenta => ['9', '5']
  | .BrightCyan => ['9', '6']
  | .BrightWhite => ['9', '7']
  | .TrueColor r g b =>
      ['3', '8', ';', '2', ';'] ++ natChars r ++ [';'] ++ natChars g ++ [';'] ++ natChars b

/-- Modelled from the spec: background color codes of the external `colored`
crate (`Color::to_bg_str`), pinned by the doc-tests in lib.rs (`[41m` for Red,
`[48;2;r;g;bm` for true color, ...). -/
def bgCode : Color → List Char
  | .Black => ['4', '0']
  | .Red => ['4', '1']
  | .Green => ['4', '2']
  | .Yellow => ['4', '3']
  | .Blue => ['4', '4']
  | .Magenta => ['4', '5']
  | .Cyan => ['4', '6']
  | .White => ['4', '7']
  | .BrightBlack => ['1', '0', '0']
  | .BrightRed => ['1', '0', '1']
  | .BrightGreen => ['1', '0', '2']
  | .BrightYellow => ['1', '0', '3']
  | .BrightBlue => ['1', '0', '4']
  | .BrightMagenta => ['1', '0', '5']
  | .BrightCyan => ['1', '0', '6']
  | .BrightWhite => ['1', '0', '7']
  | .TrueColor r g b =>
      ['4', '8', ';', '2', ';'] ++ natChars r ++ [';'] ++ natChars g ++ [';'] ++ natChars b

/-- Modelled from the spec: style codes of the external `colored` crate, pinned
by the doc-tests in lib.rs (`[1m` bold, `[3m` italic, ...). `Clear` never
reaches this table (its wrap is the identity). -/
def styleCode : Styles → List Char
  | .Clear => []
  | .Bold => ['1']
  | .Dimmed => ['2']
  | .Underline => ['4']
  | .Reversed => ['7']
  | .Italic => ['3']
  | .Blink => ['5']
  | .Hidden => ['8']
  | .Strikethrough => ['9']

/-- Modelled from the spec: `ColoredString::escape_inner_reset_sequences` of
the external `colored` crate re-opens the current style after every inner reset
`ESC [ 0 m`, as pinned by the nested doc-test outputs in lib.rs (e.g.
`"\x1B[3m\x1B[1mItalic and bold\x1B[0m\x1B[3m\x1B[0m"`). -/
def replaceResets (code : List Char) : List Char → List Char
  | a :: b :: c :: d :: rest =>
      if a == escChar && b == '[' && c == '0' && d == 'm' then
        resetSeq ++ escSeq code ++ replaceResets code rest
      else
        a :: replaceResets code (b :: c :: d :: rest)
  | l => l

/-- Modelled from the spec: a single wrap of the external `colored` crate's
`Display`: start sequence, text with inner resets re-opened, reset sequence. -/
def wrapCode (code : List Char) (s : List Char) : List Char :=
  escSeq code ++ replaceResets code s ++ resetSeq

/-- The per-style wrapping step of `Colorizer::apply` (lib.rs:483-496): `Clear`
maps to `Colorize::clear`, which produces a plain `ColoredString` whose
`Display` emits the text unchanged; every other style wraps with its code. -/
def stylizer (s : Styles) (out : List Char) : List Char :=
  match s with
  | .Clear => out
  | s => wrapCode (styleCode s) out

/-- `Colorizer::apply` (lib.rs:481-504): wrap with each present style in
`STYLES` order, then with the background, then with the foreground. -/
def Colorizer.apply (c : Colorizer) (input : List Char) : List Char :=
  let output := input
  let output := c.get_styles.foldl (fun out s => stylizer s out) output
  let output := match c.background with
    | some background_color => wrapCode (bgCode background_color) output
    | none => output
  let output := match c.foreground with
    | some foreground_color => wrapCode (fgCode foreground_color) output
    | none => output
  output

/-! ### The `colorize` entry point (lib.rs:588-649)

A Rust `&str` is embedded as its content (`List Char`) plus the address range
of its backing storage; `mem_dir_of_string` (lib.rs:509-512) returns exactly
that pair `(ptr, ptr + len)`. -/

/-- `mem_dir_of_string` (lib.rs:509-512) for a slice at `base` of length `len`. -/
def mem_dir_of_string (base len : Nat) : Nat × Nat := (base, base + len)

/-- `range_contains_other` (lib.rs:518-522): strict overlap of half-open ranges. -/
def range_contains_other (range_1_start range_1_end range_2_start range_2_end : Nat) : Bool :=
  decide (range_2_end > range_1_start) && decide (range_2_start < range_1_end)

/-- Rust's `Vec::dedup`: remove consecutive duplicates. -/
def dedupConsec : List Nat → List Nat
  | [] => []
  | [a] => [a]
  | a :: b :: rest => if a = b then dedupConsec (b :: rest) else a :: dedupConsec (b :: rest)

/-- Rust's `slice::windows(2)` as the list of adjacent pairs. -/
def windows2 {α : Type} (l : List α) : List (α × α) := l.zip l.tail

/-- Steps 1-2 of `colorize` (lib.rs:596-617): prepend the synthetic
general-colorization rule (or the `("", new)` placeholder at some address
`emptyAddr`), keep the rules whose memory range strictly overlaps the input's,
translate to offsets relative to the input with saturating subtraction and
clamping to the input length, and drop ranges that are empty after clamping.
A rule is the triple `(start address, end address, colorizer)` of its slice. -/
def retainedRules (inputBase emptyAddr : Nat) (inputLen : Nat)
    (general_colorization : Option Colorizer)
    (input_modifiers : List (Nat × Nat × Colorizer)) : List (Nat × Nat × Colorizer) :=
  let input_start := inputBase
  let input_end := inputBase + inputLen
  let tail := match general_colorization with
    | some general_colorization => [(input_start, input_end, general_colorization)]
    | none => [(emptyAddr, emptyAddr, Colorizer.new)]
  (((tail ++ input_modifiers).filter fun r =>
      range_contains_other r.1 r.2.1 input_start input_end).map fun r =>
        ((r.1 - input_start).min inputLen, (r.2.1 - input_start).min inputLen, r.2.2)).filter
    fun r => decide (r.2.1 > r.1)

/-- Step 3 of `colorize` (lib.rs:619-624): collect, sort and dedup the rule
bounds. Rust's stable `sort` on `usize` keys produces the unique sorted
permutation, here given by insertion sort. -/
def boundsOf (rules : List (Nat × Nat × Colorizer)) : List Nat :=
  dedupConsec (List.insertionSort (· ≤ ·) (rules.map (fun r => [r.1, r.2.1])).flatten)

/-- Step 4 of `colorize` (lib.rs:627-639): one segment per adjacent pair of
bounds, its colorizer folded with `join_with` over every retained rule whose
range strictly overlaps the segment, in the retained order. -/
def segmentsOf (inputBase emptyAddr : Nat) (inputLen : Nat)
    (general_colorization : Option Colorizer)
    (input_modifiers : List (Nat × Nat × Colorizer)) : List (Nat × Nat × Colorizer) :=
  let ranges_and_modifiers := retainedRules inputBase emptyAddr inputLen
    general_colorization input_modifiers
  (windows2 (boundsOf ranges_and_modifiers)).map fun se =>
    (se.1, se.2,
      (ranges_and_modifiers.filter fun r =>
          range_contains_other se.1 se.2 r.1 r.2.1).foldl
        (fun colorization r => colorization.join_with r.2.2) Colorizer.new)

/-- Step 5 of `colorize` (lib.rs:642-647): replace the slice
`output[start..end]` by its rendering.  Rust's byte slicing is modelled by
`take`/`drop`; the segments spliced are always in range, so the totalised
slicing agrees with Rust's panicking one. -/
def spliceStep (output : List Char) (seg : Nat × Nat × Colorizer) : List Char :=
  let modified := seg.2.2.apply ((output.drop seg.1).take (seg.2.1 - seg.1))
  output.take seg.1 ++ modified ++ output.drop seg.2.1

/-- `colorize` (lib.rs:588-649).  `enabled` is the external
`SHOULD_COLORIZE.should_colorize()` switch; `inputBase` the address of the
input's backing storage; `emptyAddr` the address of the `""` literal used as a
placeholder when no general colorization is given. -/
def colorize (enabled : Bool) (inputBase emptyAddr : Nat) (input : List Char)
    (general_colorization : Option Colorizer)
    (input_modifiers : List (Nat × Nat × Colorizer)) : List Char :=
  if !enabled then input
  else
    let segs := segmentsOf inputBase emptyAddr input.length
      general_colorization input_modifiers
    let sorted := List.insertionSort (fun a b : Nat × Nat × Colorizer => b.1 ≤ a.1) segs
    sorted.foldl spliceStep input

/-! ### Spec-language helpers -/

/-- The spec's "attribute set contains the Clear marker": bit 0 of the bitmask. -/
def containsClear (c : Colorizer) : Bool := (c.style_const.getD 0).testBit 0

lemma and_one_beq_eq_testBit (n : Nat) : ((n &&& 1) == 1) = n.testBit 0 := by
  rw [Nat.and_one_is_mod, Nat.testBit_zero]
  rcases Nat.mod_two_eq_zero_or_one n with h | h <;> simp [h]

/-! ### Theorems for the claims -/

/-- C1: `merge(old, new)` has foreground `new`'s if present else `old`'s,
background `new`'s if present else `old`'s, and attributes: the present side
when either set is absent; exactly `new`'s set with foreground and background
overwritten to `new`'s when both are present and `new` contains the Clear
marker; the union (bitwise or) of both sets when both are present and `new`
lacks Clear. -/
theorem c1_join_with_merge_semantics (old nw : Colorizer) :
    ((old.join_with nw).foreground =
      if old.style_const.isSome && nw.style_const.isSome && containsClear nw then
        nw.foreground
      else match nw.foreground with
        | some c => some c
        | none => old.foreground)
    ∧ ((old.join_with nw).background =
      if old.style_const.isSome && nw.style_const.isSome && containsClear nw then
        nw.background
      else match nw.background with
        | some c => some c
        | none => old.background)
    ∧ ((old.join_with nw).style_const =
      match old.style_const, nw.style_const with
      | some o, some n => some (if n.testBit 0 then n else o ||| n)
      | some o, none => some o
      | none, some n => some n
      | none, none => none) := by
  obtain ⟨f, b, s⟩ := old
  obtain ⟨f', b', s'⟩ := nw
  cases f' <;> cases b' <;> cases s <;> cases s' <;>
    simp only [Colorizer.join_with, containsClear, sytle_to_index, and_one_beq_eq_testBit,
      Nat.testBit_zero, Option.getD_some, Option.getD_none, Option.isSome_some,
      Option.isSome_none, Bool.true_and, Bool.false_and, Bool.and_true, Bool.and_false,
      if_true, if_false, Nat.shiftLeft_zero] <;>
    (split_ifs with h <;> simp_all)

/-- C2 counterexample: the claim "merging fg Red + bg Blue with the
`{Clear}`-only descriptor yields no foreground, no background and attribute set
exactly `{Clear}`" is false on the code: the colors survive, because the
Clear-reset branch of `join_with` requires both attribute sets present and the
left operand's set is absent. -/
theorem c2_clear_reset_counterexample :
    ¬ ((((Colorizer.new.withForeground .Red).withBackground .Blue).join_with
          (Colorizer.new.style .Clear)).foreground = none
        ∧ (((Colorizer.new.withForeground .Red).withBackground .Blue).join_with
          (Colorizer.new.style .Clear)).background = none
        ∧ (((Colorizer.new.withForeground .Red).withBackground .Blue).join_with
          (Colorizer.new.style .Clear)).style_const = some 1) := by
  decide

/-- C2 amended: merging the descriptor with foreground Red and background Blue
(absent attribute set) with the `{Clear}`-only descriptor yields foreground
Red, background Blue and attribute set exactly `{Clear}`: the Clear full reset
applies only when both attribute sets are present, and the left one is absent
here. -/
theorem c2_clear_on_absent_attributes_keeps_colors :
    ((Colorizer.new.withForeground .Red).withBackground .Blue).join_with
        (Colorizer.new.style .Clear)
      = ⟨some .Red, some .Blue, some 1⟩ := by
  decide

/-- C5: the builder `style` with `Clear` sets the attribute set to exactly
`{Clear}` and erases both colors; with any other attribute it takes the present
set (or the present-but-empty set `0` when absent) and inserts that attribute's
bit, leaving the colors unchanged. -/
theorem c5_style_builder (c : Colorizer) (s : Styles) :
    c.style s =
      if s = Styles.Clear then
        { foreground := none, background := none,
          style_const := some (1 <<< sytle_to_index Styles.Clear) }
      else
        { foreground := c.foreground, background := c.background,
          style_const := some ((match c.style_const with
            | none => 0
            | some m => m) ||| (1 <<< sytle_to_index s)) } := by
  obtain ⟨f, b, sc⟩ := c
  cases s <;> cases sc <;> rfl

/-- C8: with styling disabled, `colorize` returns the input unchanged,
whatever the general colorization and the rules are. -/
theorem c8_disabled_bypass (inputBase emptyAddr : Nat) (input : List Char)
    (general_colorization : Option Colorizer)
    (input_modifiers : List (Nat × Nat × Colorizer)) :
    colorize false inputBase emptyAddr input general_colorization input_modifiers = input := rfl

/-- C10: the empty colorizer is a two-sided identity for `join_with`, which
makes seeding the per-segment fold with `Colorizer::new` harmless. -/
theorem c10_new_identity_join_with (c : Colorizer) :
    Colorizer.new.join_with c = c ∧ c.join_with Colorizer.new = c := by
  obtain ⟨f, b, s⟩ := c
  cases f <;> cases b <;> cases s <;> exact ⟨rfl, rfl⟩

lemma retainedRules_none_nil (inputBase emptyAddr inputLen : Nat) :
    retainedRules inputBase emptyAddr inputLen none [] = [] := by
  unfold retainedRules
  cases h : range_contains_other emptyAddr emptyAddr inputBase (inputBase + inputLen) <;>
    simp [h, List.filter]

/-- C9: with no general colorization and no rules, `colorize` returns the input
unchanged, whether styling is enabled or disabled, and whatever the addresses of
the input and of the `""` placeholder are. -/
theorem c9_inert_identity (enabled : Bool) (inputBase emptyAddr : Nat) (input : List Char) :
    colorize enabled inputBase emptyAddr input none [] = input := by
  cases enabled
  · rfl
  · simp [colorize, segmentsOf, retainedRules_none_nil, boundsOf, dedupConsec, windows2,
      List.insertionSort]

lemma retainedRules_drop_foreign (inputBase emptyAddr inputLen : Nat)
    (gen : Option Colorizer) (l1 l2 : List (Nat × Nat × Colorizer)) (s e : Nat) (c : Colorizer)
    (h : range_contains_other s e inputBase (inputBase + inputLen) = false) :
    retainedRules inputBase emptyAddr inputLen gen (l1 ++ (s, e, c) :: l2)
      = retainedRules inputBase emptyAddr inputLen gen (l1 ++ l2) := by
  unfold retainedRules
  simp only [← List.append_assoc, List.filter_append, List.filter_cons, h, if_false,
    List.map_append, Bool.false_eq_true]

/-- C4: a rule whose memory range does not strictly overlap the input's
identity range is dropped by the identity filter and contributes nothing:
`colorize` returns the same output as if the rule were absent, with no
diagnostic.  The rule's slice carries no content in this model, so the result
in particular covers foreign slices whose bytes equal a slice of the input. -/
theorem c4_foreign_rule_inert (enabled : Bool) (inputBase emptyAddr : Nat) (input : List Char)
    (gen : Option Colorizer) (l1 l2 : List (Nat × Nat × Colorizer)) (s e : Nat) (c : Colorizer)
    (h : range_contains_other s e inputBase (inputBase + input.length) = false) :
    colorize enabled inputBase emptyAddr input gen (l1 ++ (s, e, c) :: l2)
      = colorize enabled inputBase emptyAddr input gen (l1 ++ l2) := by
  cases enabled
  · rfl
  · simp only [colorize, segmentsOf,
      retainedRules_drop_foreign inputBase emptyAddr input.length gen l1 l2 s e c h]

/-- C4 witness: a concrete foreign rule (range `[0,1)` against an input living
at `[100,102)`) is inert. -/
theorem c4_foreign_rule_inert_witness :
    range_contains_other 0 1 100 (100 + ("ab".toList).length) = false
    ∧ colorize true 100 7 "ab".toList (some (Colorizer.new.withForeground .Red))
        ([] ++ (0, 1, Colorizer.new.withForeground .Green) :: [])
      = colorize true 100 7 "ab".toList (some (Colorizer.new.withForeground .Red)) ([] ++ []) :=
  ⟨by decide,
   c4_foreign_rule_inert true 100 7 "ab".toList (some (Colorizer.new.withForeground .Red))
     [] [] 0 1 (Colorizer.new.withForeground .Green) (by decide)⟩

/-- C3: for the input `"Rainbow"` at base address 100 with the six nested rules
of the crate's rainbow example and general colorization White, the resolver
partitions the input into the seven single-byte segments and the composed
foregrounds are Red, RGB(255,160,0), Yellow, Green, Blue, Magenta, White (last
covering rule wins; position 6 is covered only by the general rule), and the
full `colorize` output is the exact escape string of the doc-test in lib.rs. -/
theorem c3_rainbow_overlap_precedence :
    ((segmentsOf 100 0 7 (some (Colorizer.new.withForeground .White))
        [(100, 106, Colorizer.new.withForeground .Red),
         (101, 106, Colorizer.new.withForeground (.TrueColor 255 160 0)),
         (102, 106, Colorizer.new.withForeground .Yellow),
         (103, 106, Colorizer.new.withForeground .Green),
         (104, 106, Colorizer.new.withForeground .Blue),
         (105, 106, Colorizer.new.withForeground .Magenta)]).map
      (fun seg => (seg.1, seg.2.1, seg.2.2.foreground))
      = [(0, 1, some .Red), (1, 2, some (.TrueColor 255 160 0)), (2, 3, some .Yellow),
         (3, 4, some .Green), (4, 5, some .Blue), (5, 6, some .Magenta), (6, 7, some .White)])
    ∧ colorize true 100 0 "Rainbow".toList (some (Colorizer.new.withForeground .White))
        [(100, 106, Colorizer.new.withForeground .Red),
         (101, 106, Colorizer.new.withForeground (.TrueColor 255 160 0)),
         (102, 106, Colorizer.new.withForeground .Yellow),
         (103, 106, Colorizer.new.withForeground .Green),
         (104, 106, Colorizer.new.withForeground .Blue),
         (105, 106, Colorizer.new.withForeground .Magenta)]
      = ("\x1b[31mR\x1b[0m\x1b[38;2;255;160;0ma\x1b[0m\x1b[33mi\x1b[0m\x1b[32mn\x1b[0m" ++
         "\x1b[34mb\x1b[0m\x1b[35mo\x1b[0m\x1b[37mw\x1b[0m").toList := by
  exact ⟨by decide, by decide⟩

/-! ### Stripping escape sequences

Machinery for C7: a state machine that removes ANSI escape sequences, and an
insertion relation `StripsTo t s` meaning `t` is `s` with complete escape
sequences spliced in. -/

/-- Escape-stripping state machine; `false` = copying text, `true` = inside an
escape sequence, skipping up to and including the terminating `m`. -/
def stripAux : Bool → List Char → List Char
  | _, [] => []
  | false, c :: rest => if c = escChar then stripAux true rest else c :: stripAux false rest
  | true, c :: rest => if c = 'm' then stripAux false rest else stripAux true rest

/-- Remove all ANSI escape sequences `ESC ... m` from a string. -/
def stripEscapes (l : List Char) : List Char := stripAux false l

/-- `StripsTo t s`: `t` is `s` with complete escape sequences
`ESC body m` (bodies free of `ESC` and `m`) inserted at arbitrary points. -/
inductive StripsTo : List Char → List Char → Prop
  | nil : StripsTo [] []
  | chr {c : Char} {t s : List Char} : c ≠ escChar → StripsTo t s → StripsTo (c :: t) (c :: s)
  | seq {body t s : List Char} : escChar ∉ body → 'm' ∉ body → StripsTo t s →
      StripsTo (escChar :: body ++ 'm' :: t) s

lemma stripAux_true_append {body : List Char} (hbm : 'm' ∉ body) (t : List Char) :
    stripAux true (body ++ 'm' :: t) = stripAux false t := by
  induction body with
  | nil => simp [stripAux]
  | cons c rest ih =>
      have hc : c ≠ 'm' := fun h => hbm (h ▸ List.mem_cons_self c rest)
      simp only [List.cons_append, stripAux, if_neg hc]
      exact ih fun h => hbm (List.mem_cons_of_mem c h)

lemma StripsTo.strip_eq {t s : List Char} (h : StripsTo t s) : stripEscapes t = s := by
  induction h with
  | nil => rfl
  | chr hc _ ih => simpa [stripEscapes, stripAux, if_neg hc] using ih
  | @seq body t' s' hbe hbm _ ih =>
      show stripAux false (escChar :: body ++ 'm' :: t') = s'
      rw [show stripAux false (escChar :: body ++ 'm' :: t')
            = stripAux true (body ++ 'm' :: t') by simp [stripAux],
        stripAux_true_append hbm]
      exact ih

lemma StripsTo.append {a sa b sb : List Char} (ha : StripsTo a sa) (hb : StripsTo b sb) :
    StripsTo (a ++ b) (sa ++ sb) := by
  induction ha with
  | nil => simpa using hb
  | chr hc _ ih => exact StripsTo.chr hc ih
  | @seq body t' s' hbe hbm _ ih =>
      have := StripsTo.seq (t := t' ++ b) hbe hbm ih
      simpa using this

lemma StripsTo.self {l : List Char} (h : escChar ∉ l) : StripsTo l l := by
  induction l with
  | nil => exact StripsTo.nil
  | cons c rest ih =>
      exact StripsTo.chr (fun hc => h (hc ▸ List.mem_cons_self c rest))
        (ih fun hm => h (List.mem_cons_of_mem c hm))

/-- A code may appear in an escape body: free of `ESC` and of `m`. -/
def codeOk (code : List Char) : Prop := ∀ c ∈ code, c ≠ escChar ∧ c ≠ 'm'

instance codeOk.decidable (code : List Char) : Decidable (codeOk code) :=
  inferInstanceAs (Decidable (∀ c ∈ code, c ≠ escChar ∧ c ≠ 'm'))

lemma codeOk_append {a b : List Char} (ha : codeOk a) (hb : codeOk b) : codeOk (a ++ b) := by
  intro c hc
  rcases List.mem_append.mp hc with h | h
  · exact ha c h
  · exact hb c h

lemma StripsTo.escSeq_left {code t s : List Char} (hc : codeOk code) (h : StripsTo t s) :
    StripsTo (escSeq code ++ t) s := by
  have hbe : escChar ∉ '[' :: code := by
    intro hm
    rcases List.mem_cons.mp hm with h' | h'
    · exact absurd h'.symm (by decide)
    · exact (hc _ h').1 rfl
  have hbm : 'm' ∉ '[' :: code := by
    intro hm
    rcases List.mem_cons.mp hm with h' | h'
    · exact absurd h'.symm (by decide)
    · exact (hc _ h').2 rfl
  have := StripsTo.seq hbe hbm h
  simpa [escSeq] using this

lemma StripsTo.resetSeq_left {t s : List Char} (h : StripsTo t s) :
    StripsTo (resetSeq ++ t) s :=
  StripsTo.escSeq_left (by decide) h

lemma replaceResets_short {code l : List Char} (h : l.length ≤ 3) :
    replaceResets code l = l := by
  match l with
  | [] => rfl
  | [a] => rfl
  | [a, b] => rfl
  | [a, b, c] => rfl
  | a :: b :: c :: d :: rest => simp only [List.length_cons] at h; omega

lemma replaceResets_cons_not_reset {code : List Char} {c : Char} {t : List Char}
    (h : ¬(c = escChar ∧ t.take 3 = ['[', '0', 'm'])) :
    replaceResets code (c :: t) = c :: replaceResets code t := by
  match t with
  | [] => rfl
  | [a] => rfl
  | [a, b] => rfl
  | a :: b :: d :: rest =>
      have hcond : (c == escChar && a == '[' && b == '0' && d == 'm') = false := by
        by_contra hcontra
        rw [Bool.not_eq_false, Bool.and_eq_true, Bool.and_eq_true, Bool.and_eq_true] at hcontra
        obtain ⟨⟨⟨h1, h2⟩, h3⟩, h4⟩ := hcontra
        exact h ⟨by simpa using h1, by simp [List.take, beq_iff_eq.mp h2,
          beq_iff_eq.mp h3, beq_iff_eq.mp h4]⟩
      simp only [replaceResets, hcond, Bool.false_eq_true, if_false]

lemma replaceResets_cons_ne {code : List Char} {c : Char} (hc : c ≠ escChar)
    (t : List Char) : replaceResets code (c :: t) = c :: replaceResets code t :=
  replaceResets_cons_not_reset fun hcontra => hc hcontra.1

lemma replaceResets_noEsc_append {code u v : List Char} (hu : escChar ∉ u) :
    replaceResets code (u ++ v) = u ++ replaceResets code v := by
  induction u with
  | nil => rfl
  | cons c rest ih =>
      have hc : c ≠ escChar := fun h => hu (h ▸ List.mem_cons_self c rest)
      simp only [List.cons_append]
      rw [replaceResets_cons_ne hc, ih fun h => hu (List.mem_cons_of_mem c h)]

lemma replaceResets_resetSeq (code t : List Char) :
    replaceResets code (resetSeq ++ t) = resetSeq ++ escSeq code ++ replaceResets code t := rfl

lemma replaceResets_esc_head {code body : List Char} (hbe : escChar ∉ body) (hbm : 'm' ∉ body)
    (hne : body ≠ ['[', '0']) (t : List Char) :
    replaceResets code (escChar :: body ++ 'm' :: t)
      = escChar :: body ++ 'm' :: replaceResets code t := by
  simp only [List.cons_append]
  have hstep : replaceResets code (escChar :: (body ++ 'm' :: t))
      = escChar :: replaceResets code (body ++ 'm' :: t) := by
    refine replaceResets_cons_not_reset fun hcontra => ?_
    match body, hcontra with
    | [], ⟨_, htk⟩ =>
        cases t <;> simp_all [List.take]
    | [y], ⟨_, htk⟩ =>
        cases t <;> simp_all [List.take]
    | [y1, y2], ⟨_, htk⟩ =>
        simp only [List.cons_append, List.nil_append, List.take, List.cons.injEq] at htk
        exact hne (by simp [htk.1, htk.2.1])
    | y1 :: y2 :: y3 :: ys, ⟨_, htk⟩ =>
        simp only [List.cons_append, List.take, List.cons.injEq] at htk
        exact hbm (by simp [htk.2.2.1])
  rw [hstep, replaceResets_noEsc_append hbe]
  rw [replaceResets_cons_ne (by decide)]

lemma replaceResets_strips {code t s : List Char} (hcode : codeOk code) (h : StripsTo t s) :
    StripsTo (replaceResets code t) s := by
  induction h with
  | nil => exact StripsTo.nil
  | @chr c t' s' hc _ ih =>
      rw [replaceResets_cons_ne hc]
      exact StripsTo.chr hc ih
  | @seq body t' s' hbe hbm _ ih =>
      by_cases hb : body = ['[', '0']
      · subst hb
        have hshape : escChar :: ['[', '0'] ++ 'm' :: t' = resetSeq ++ t' := rfl
        rw [hshape, replaceResets_resetSeq, List.append_assoc]
        exact StripsTo.resetSeq_left (StripsTo.escSeq_left hcode ih)
      · rw [replaceResets_esc_head hbe hbm hb]
        exact StripsTo.seq hbe hbm ih

lemma wrapCode_strips {code t s : List Char} (hcode : codeOk code) (h : StripsTo t s) :
    StripsTo (wrapCode code t) s := by
  have h1 : StripsTo (replaceResets code t ++ resetSeq) (s ++ []) :=
    StripsTo.append (replaceResets_strips hcode h) (StripsTo.resetSeq_left StripsTo.nil)
  have h2 := StripsTo.escSeq_left hcode (by simpa using h1)
  simpa [wrapCode, List.append_assoc] using h2

lemma digitChar_ok : ∀ d, d < 10 → Char.ofNat (48 + d) ≠ escChar ∧ Char.ofNat (48 + d) ≠ 'm' := by
  decide

lemma natCharsAux_ok (fuel : Nat) : ∀ (n : Nat) (acc : List Char),
    (∀ c ∈ acc, c ≠ escChar ∧ c ≠ 'm') →
    ∀ c ∈ natCharsAux fuel n acc, c ≠ escChar ∧ c ≠ 'm' := by
  induction fuel with
  | zero => intro n acc hacc; simpa [natCharsAux] using hacc
  | succ f ih =>
      intro n acc hacc
      cases n with
      | zero => simpa [natCharsAux] using hacc
      | succ m =>
          show ∀ c ∈ natCharsAux f ((m + 1) / 10) (Char.ofNat (48 + (m + 1) % 10) :: acc), _
          refine ih _ _ ?_
          intro c hc
          rcases List.mem_cons.mp hc with h | h
          · exact h ▸ digitChar_ok _ (Nat.mod_lt _ (by omega))
          · exact hacc c h

lemma natChars_ok (n : Nat) : codeOk (natChars n) := by
  cases n with
  | zero => decide
  | succ m => exact fun c hc => natCharsAux_ok _ _ [] (by simp) c hc

lemma fgCode_ok (c : Color) : codeOk (fgCode c) := by
  cases c
  case TrueColor r g b =>
    refine codeOk_append (codeOk_append (codeOk_append (codeOk_append
      (codeOk_append ?_ (natChars_ok r)) ?_) (natChars_ok g)) ?_) (natChars_ok b) <;> decide
  all_goals decide

lemma bgCode_ok (c : Color) : codeOk (bgCode c) := by
  cases c
  case TrueColor r g b =>
    refine codeOk_append (codeOk_append (codeOk_append (codeOk_append
      (codeOk_append ?_ (natChars_ok r)) ?_) (natChars_ok g)) ?_) (natChars_ok b) <;> decide
  all_goals decide

lemma foldl_stylizer_strips (l : List Styles) {t s : List Char} (h : StripsTo t s) :
    StripsTo (l.foldl (fun out st => stylizer st out) t) s := by
  induction l generalizing t with
  | nil => simpa using h
  | cons st rest ih =>
      simp only [List.foldl_cons]
      refine ih ?_
      cases st
      case Clear => exact h
      all_goals exact wrapCode_strips (by decide) h

lemma Colorizer.apply_strips (c : Colorizer) {t s : List Char} (h : StripsTo t s) :
    StripsTo (c.apply t) s := by
  obtain ⟨f, b, sc⟩ := c
  have h1 := foldl_stylizer_strips (Colorizer.get_styles ⟨f, b, sc⟩) h
  cases b <;> cases f <;> simp only [Colorizer.apply]
  · exact h1
  · exact wrapCode_strips (fgCode_ok _) h1
  · exact wrapCode_strips (bgCode_ok _) h1
  · exact wrapCode_strips (fgCode_ok _) (wrapCode_strips (bgCode_ok _) h1)

/-! ### Ordering facts about the resolver's segments -/

/-- First segment's start, or `dflt` for the empty list. -/
def headStart (l : List (Nat × Nat × Colorizer)) (dflt : Nat) : Nat :=
  match l with
  | [] => dflt
  | seg :: _ => seg.1

/-- Ascending well-formed segment list: lower bound `m`, every segment
nonempty, consecutive segments ordered, all ends within `len`. -/
def AscOK (len : Nat) : Nat → List (Nat × Nat × Colorizer) → Prop
  | m, [] => m ≤ len
  | m, seg :: rest => m ≤ seg.1 ∧ seg.1 < seg.2.1 ∧ AscOK len seg.2.1 rest

lemma AscOK.mono {len m m' : Nat} {l : List (Nat × Nat × Colorizer)}
    (h : AscOK len m l) (hm : m' ≤ m) : AscOK len m' l := by
  cases l with
  | nil => exact le_trans hm h
  | cons seg rest => exact ⟨le_trans hm h.1, h.2.1, h.2.2⟩

lemma AscOK.le_headStart {len m : Nat} {l : List (Nat × Nat × Colorizer)}
    (h : AscOK len m l) : m ≤ headStart l len := by
  cases l with
  | nil => exact h
  | cons seg rest => exact h.1

lemma AscOK.headStart_le {len : Nat} {l : List (Nat × Nat × Colorizer)} :
    ∀ {m : Nat}, AscOK len m l → headStart l len ≤ len := by
  induction l with
  | nil => intro m _; exact le_refl len
  | cons seg rest ih =>
      intro m h
      calc headStart (seg :: rest) len = seg.1 := rfl
        _ ≤ seg.2.1 := le_of_lt h.2.1
        _ ≤ headStart rest len := h.2.2.le_headStart
        _ ≤ len := ih h.2.2

lemma AscOK.le_start {len : Nat} {l : List (Nat × Nat × Colorizer)} :
    ∀ {m : Nat}, AscOK len m l → ∀ seg ∈ l, m ≤ seg.1 := by
  induction l with
  | nil => intro m _ seg hseg; cases hseg
  | cons x rest ih =>
      intro m h seg hseg
      rcases List.mem_cons.mp hseg with hx | hx
      · exact hx ▸ h.1
      · exact le_trans (le_trans h.1 (le_of_lt h.2.1)) (ih h.2.2 seg hx)

lemma AscOK.pairwise_start {len : Nat} {l : List (Nat × Nat × Colorizer)} :
    ∀ {m : Nat}, AscOK len m l → List.Pairwise (fun a b : Nat × Nat × Colorizer => a.1 < b.1) l := by
  induction l with
  | nil => intro m _; exact List.Pairwise.nil
  | cons x rest ih =>
      intro m h
      refine List.pairwise_cons.mpr ⟨?_, ih h.2.2⟩
      intro seg hseg
      exact lt_of_lt_of_le h.2.1 (h.2.2.le_start seg hseg)

lemma dedupConsec_cons_head (a : Nat) (l : List Nat) :
    ∃ t, dedupConsec (a :: l) = a :: t := by
  induction l generalizing a with
  | nil => exact ⟨[], rfl⟩
  | cons b rest ih =>
      by_cases hab : a = b
      · obtain ⟨t, ht⟩ := ih b
        exact ⟨t, by simp [dedupConsec, hab, ht]⟩
      · exact ⟨dedupConsec (b :: rest), by simp [dedupConsec, hab]⟩

lemma dedupConsec_chain : ∀ {l : List Nat}, l.Sorted (· ≤ ·) →
    List.Chain' (· < ·) (dedupConsec l) := by
  intro l
  induction l with
  | nil => intro _; simp [dedupConsec]
  | cons a l' ih =>
      intro hs
      have hs' : l'.Sorted (· ≤ ·) := (List.sorted_cons.mp hs).2
      cases l' with
      | nil => simp [dedupConsec]
      | cons b rest =>
          by_cases hab : a = b
          · simpa [dedupConsec, hab] using ih hs'
          · have hle : a ≤ b := (List.sorted_cons.mp hs).1 b (List.mem_cons_self b rest)
            obtain ⟨t, ht⟩ := dedupConsec_cons_head b rest
            have hch := ih hs'
            rw [ht] at hch
            simp only [dedupConsec, hab, if_false, ht]
            exact List.chain'_cons.mpr ⟨lt_of_le_of_ne hle hab, hch⟩

lemma dedupConsec_subset : ∀ {l : List Nat} {x : Nat}, x ∈ dedupConsec l → x ∈ l := by
  intro l
  induction l with
  | nil => intro x hx; simp [dedupConsec] at hx
  | cons a l' ih =>
      intro x hx
      cases l' with
      | nil => simpa [dedupConsec] using hx
      | cons b rest =>
          by_cases hab : a = b
          · simp only [dedupConsec, hab, if_true] at hx
            exact List.mem_cons_of_mem a (ih (by simpa [hab] using hx))
          · simp only [dedupConsec, hab, if_false] at hx
            rcases List.mem_cons.mp hx with h | h
            · exact h ▸ List.mem_cons_self a _
            · exact List.mem_cons_of_mem a (ih h)

lemma retainedRules_bounds_le (inputBase emptyAddr inputLen : Nat)
    (gen : Option Colorizer) (mods : List (Nat × Nat × Colorizer)) :
    ∀ r ∈ retainedRules inputBase emptyAddr inputLen gen mods,
      r.1 ≤ inputLen ∧ r.2.1 ≤ inputLen := by
  intro r hr
  unfold retainedRules at hr
  obtain ⟨r', hr', hmap⟩ := List.mem_map.mp (List.mem_filter.mp hr).1
  obtain ⟨-, -⟩ := List.mem_filter.mp hr'
  subst hmap
  exact ⟨Nat.min_le_right _ _, Nat.min_le_right _ _⟩

lemma boundsOf_chain (rules : List (Nat × Nat × Colorizer)) :
    List.Chain' (· < ·) (boundsOf rules) :=
  dedupConsec_chain (List.sorted_insertionSort _ _)

lemma boundsOf_le {len : Nat} {rules : List (Nat × Nat × Colorizer)}
    (h : ∀ r ∈ rules, r.1 ≤ len ∧ r.2.1 ≤ len) :
    ∀ b ∈ boundsOf rules, b ≤ len := by
  intro b hb
  have hb1 : b ∈ List.insertionSort (· ≤ ·) (rules.map (fun r => [r.1, r.2.1])).flatten :=
    dedupConsec_subset hb
  have hb2 : b ∈ (rules.map (fun r => [r.1, r.2.1])).flatten :=
    (List.perm_insertionSort _ _).mem_iff.mp hb1
  obtain ⟨lst, hlst, hblst⟩ := List.mem_flatten.mp hb2
  obtain ⟨r, hrmem, hrl⟩ := List.mem_map.mp hlst
  subst hrl
  rcases List.mem_cons.mp hblst with h1 | h1
  · exact h1 ▸ (h r hrmem).1
  · rcases List.mem_cons.mp h1 with h2 | h2
    · exact h2 ▸ (h r hrmem).2
    · cases h2

lemma ascok_windows2_map (len : Nat) (f : Nat × Nat → Nat × Nat × Colorizer)
    (hf : ∀ p, (f p).1 = p.1 ∧ (f p).2.1 = p.2) :
    ∀ (B : List Nat) (x : Nat), List.Chain' (· < ·) (x :: B) → (∀ b ∈ x :: B, b ≤ len) →
    AscOK len x ((windows2 (x :: B)).map f) := by
  intro B
  induction B with
  | nil =>
      intro x _ hle
      show AscOK len x []
      exact hle x (List.mem_cons_self x [])
  | cons y B' ih =>
      intro x hch hle
      have hxy : x < y := (List.chain'_cons.mp hch).1
      have hch' : List.Chain' (· < ·) (y :: B') := (List.chain'_cons.mp hch).2
      have hle' : ∀ b ∈ y :: B', b ≤ len := fun b hb => hle b (List.mem_cons_of_mem x hb)
      show AscOK len x (f (x, y) :: (windows2 (y :: B')).map f)
      refine ⟨(hf (x, y)).1 ▸ le_refl x, ?_, ?_⟩
      · rw [(hf (x, y)).1, (hf (x, y)).2]; exact hxy
      · rw [(hf (x, y)).2]; exact ih y hch' hle'

lemma ascok_of_bounds (len : Nat) (B : List Nat) (f : Nat × Nat → Nat × Nat × Colorizer)
    (hf : ∀ p, (f p).1 = p.1 ∧ (f p).2.1 = p.2)
    (hchain : List.Chain' (· < ·) B) (hble : ∀ b ∈ B, b ≤ len) :
    AscOK len 0 ((windows2 B).map f) := by
  cases B with
  | nil => exact Nat.zero_le _
  | cons x B' => exact (ascok_windows2_map len f hf B' x hchain hble).mono (Nat.zero_le x)

lemma segmentsOf_ascok (inputBase emptyAddr inputLen : Nat) (gen : Option Colorizer)
    (mods : List (Nat × Nat × Colorizer)) :
    AscOK inputLen 0 (segmentsOf inputBase emptyAddr inputLen gen mods) := by
  show AscOK inputLen 0
    ((windows2 (boundsOf (retainedRules inputBase emptyAddr inputLen gen mods))).map
      (fun se =>
        (se.1, se.2,
          ((retainedRules inputBase emptyAddr inputLen gen mods).filter fun r =>
              range_contains_other se.1 se.2 r.1 r.2.1).foldl
            (fun colorization r => colorization.join_with r.2.2) Colorizer.new)))
  exact ascok_of_bounds inputLen _ _ (fun p => ⟨rfl, rfl⟩)
    (boundsOf_chain _) (boundsOf_le (retainedRules_bounds_le inputBase emptyAddr inputLen gen mods))

lemma mem_take_drop_mem {input u : List Char} {s k : Nat}
    (hu : u = (input.drop s).take k) {c : Char} (hc : c ∈ u) : c ∈ input := by
  subst hu
  exact (List.drop_sublist s input).subset ((List.take_sublist k _).subset hc)

/-- The rightmost-first splice over an ascending segment list, seen from the
right end: the produced output is the untouched prefix of the input up to the
first segment's start, followed by a tail that strips back to the rest of the
input. -/
lemma foldr_splice_strips (input : List Char) (hin : escChar ∉ input) :
    ∀ (segs : List (Nat × Nat × Colorizer)) (m : Nat), AscOK input.length m segs →
    ∃ T, segs.foldr (fun seg out => spliceStep out seg) input
          = input.take (headStart segs input.length) ++ T
        ∧ StripsTo T (input.drop (headStart segs input.length)) := by
  intro segs
  induction segs with
  | nil =>
      intro m _
      refine ⟨[], ?_, ?_⟩
      · simp [headStart]
      · simp only [headStart, List.drop_length]
        exact StripsTo.nil
  | cons x rest ih =>
      intro m hasc
      obtain ⟨hmx, hxe, hrest⟩ := hasc
      obtain ⟨T', hEq, hST⟩ := ih x.2.1 hrest
      set s := x.1 with hs
      set e := x.2.1 with he
      set b' := headStart rest input.length with hb'
      have heb' : e ≤ b' := hrest.le_headStart
      have hb'len : b' ≤ input.length := hrest.headStart_le
      have hsb' : s ≤ b' := le_trans (le_of_lt hxe) heb'
      have hlen_take : (input.take b').length = b' := by
        rw [List.length_take]; omega
      have htake : (input.take b' ++ T').take s = input.take s := by
        rw [List.take_append_eq_append_take, hlen_take, Nat.sub_eq_zero_of_le hsb',
          List.take_take, List.take_zero, List.append_nil, Nat.min_def]
        split
        · rfl
        · omega
      have hdrop_s : (input.take b' ++ T').drop s = (input.drop s).take (b' - s) ++ T' := by
        rw [List.drop_append_eq_append_drop, hlen_take, Nat.sub_eq_zero_of_le hsb',
          List.drop_take, List.drop_zero]
      have hlen_mid : ((input.drop s).take (b' - s)).length = b' - s := by
        rw [List.length_take, List.length_drop]; omega
      have hslice : ((input.take b' ++ T').drop s).take (e - s) = (input.drop s).take (e - s) := by
        rw [hdrop_s, List.take_append_eq_append_take, hlen_mid,
          Nat.sub_eq_zero_of_le (by omega : e - s ≤ b' - s), List.take_take, List.take_zero,
          List.append_nil, Nat.min_def]
        split
        · rfl
        · omega
      have hdrop_e : (input.take b' ++ T').drop e = (input.drop e).take (b' - e) ++ T' := by
        rw [List.drop_append_eq_append_drop, hlen_take, Nat.sub_eq_zero_of_le heb',
          List.drop_take, List.drop_zero]
      refine ⟨x.2.2.apply ((input.drop s).take (e - s))
        ++ ((input.drop e).take (b' - e) ++ T'), ?_, ?_⟩
      · show spliceStep (rest.foldr (fun seg out => spliceStep out seg) input) x
          = input.take s ++ _
        rw [hEq]
        unfold spliceStep
        rw [htake, hslice, hdrop_e]
        simp [List.append_assoc]
      · show StripsTo _ (input.drop s)
        have hdecomp : input.drop s
            = (input.drop s).take (e - s) ++ ((input.drop e).take (b' - e) ++ input.drop b') := by
          have h1 : (input.drop s).drop (e - s) = input.drop e := by
            rw [List.drop_drop]; congr 1; omega
          have h2 : (input.drop e).drop (b' - e) = input.drop b' := by
            rw [List.drop_drop]; congr 1; omega
          calc input.drop s = (input.drop s).take (e - s) ++ (input.drop s).drop (e - s) :=
                (List.take_append_drop _ _).symm
            _ = (input.drop s).take (e - s) ++ input.drop e := by rw [h1]
            _ = (input.drop s).take (e - s)
                ++ ((input.drop e).take (b' - e) ++ (input.drop e).drop (b' - e)) := by
                  rw [List.take_append_drop]
            _ = (input.drop s).take (e - s) ++ ((input.drop e).take (b' - e) ++ input.drop b') := by
                  rw [h2]
        have hstrips : StripsTo
            (x.2.2.apply ((input.drop s).take (e - s))
              ++ ((input.drop e).take (b' - e) ++ T'))
            ((input.drop s).take (e - s) ++ ((input.drop e).take (b' - e) ++ input.drop b')) :=
          StripsTo.append
            (x.2.2.apply_strips (StripsTo.self fun hc => hin (mem_take_drop_mem rfl hc)))
            (StripsTo.append (StripsTo.self fun hc => hin (mem_take_drop_mem rfl hc)) hST)
        rw [← hdecomp] at hstrips
        exact hstrips

lemma orderedInsert_all_not {α : Type} (r : α → α → Prop) [DecidableRel r] (x : α) :
    ∀ (l : List α), (∀ y ∈ l, ¬ r x y) → List.orderedInsert r x l = l ++ [x] := by
  intro l
  induction l with
  | nil => intro _; rfl
  | cons y ys ih =>
      intro h
      rw [List.orderedInsert, if_neg (h y (List.mem_cons_self y ys)),
        ih fun z hz => h z (List.mem_cons_of_mem y hz)]
      rfl

/-- On a list with strictly increasing start offsets, the descending sort by
start used in `colorize` Step 5 is exactly the reverse. -/
lemma insertionSort_desc_eq_reverse :
    ∀ (l : List (Nat × Nat × Colorizer)),
    List.Pairwise (fun a b : Nat × Nat × Colorizer => a.1 < b.1) l →
    List.insertionSort (fun a b : Nat × Nat × Colorizer => b.1 ≤ a.1) l = l.reverse := by
  intro l
  induction l with
  | nil => intro _; rfl
  | cons x xs ih =>
      intro hp
      have hall : ∀ y ∈ xs.reverse, ¬ (fun a b : Nat × Nat × Colorizer => b.1 ≤ a.1) x y := by
        intro y hy
        have := (List.pairwise_cons.mp hp).1 y (List.mem_reverse.mp hy)
        omega
      rw [List.insertionSort, ih (List.pairwise_cons.mp hp).2,
        orderedInsert_all_not _ x _ hall, List.reverse_cons]

/-- C7 counterexample: for an input that itself contains an escape sequence,
stripping the (identity) output of `colorize` does not reproduce the input. -/
theorem c7_strip_counterexample :
    stripEscapes (colorize true 0 0 "\x1b[0m".toList none []) ≠ "\x1b[0m".toList := by
  decide

/-- C7 (amended with the ESC-free proviso): for every input free of the escape
byte `0x1B`, every general colorization and every rule list, stripping all
escape sequences from the styling-enabled output of `colorize` reproduces the
input byte-for-byte (the output is the input with complete escape sequences
spliced in, every input byte preserved in order). -/
theorem c7_strip_roundtrip (inputBase emptyAddr : Nat) (input : List Char)
    (general_colorization : Option Colorizer)
    (input_modifiers : List (Nat × Nat × Colorizer))
    (hin : escChar ∉ input) :
    stripEscapes
        (colorize true inputBase emptyAddr input general_colorization input_modifiers)
      = input := by
  have hasc := segmentsOf_ascok inputBase emptyAddr input.length
    general_colorization input_modifiers
  have hpair := hasc.pairwise_start
  show stripEscapes
      ((List.insertionSort (fun a b : Nat × Nat × Colorizer => b.1 ≤ a.1)
        (segmentsOf inputBase emptyAddr input.length general_colorization
          input_modifiers)).foldl spliceStep input) = input
  rw [insertionSort_desc_eq_reverse _ hpair, List.foldl_reverse]
  obtain ⟨T, hEq, hST⟩ := foldr_splice_strips input hin _ 0 hasc
  rw [hEq]
  have htake : StripsTo
      (input.take (headStart (segmentsOf inputBase emptyAddr input.length
        general_colorization input_modifiers) input.length))
      (input.take (headStart (segmentsOf inputBase emptyAddr input.length
        general_colorization input_modifiers) input.length)) :=
    StripsTo.self fun hc => hin ((List.take_sublist _ _).subset hc)
  have hfull := StripsTo.append htake hST
  rw [List.take_append_drop] at hfull
  exact hfull.strip_eq

/-- C7 witness: a concrete ESC-free input with a general colorization and one
rule round-trips through stripping. -/
theorem c7_strip_roundtrip_witness :
    escChar ∉ "ab".toList
    ∧ stripEscapes (colorize true 100 0 "ab".toList
        (some (Colorizer.new.withForeground .Red))
        [(100, 101, Colorizer.new.withForeground .Green)]) = "ab".toList :=
  ⟨by decide,
   c7_strip_roundtrip 100 0 "ab".toList (some (Colorizer.new.withForeground .Red))
     [(100, 101, Colorizer.new.withForeground .Green)] (by decide)⟩

/-! ### C6: rendering order -/

/-- The eight visual attributes in enumeration order (Clear excluded). -/
def VISUAL_STYLES : List Styles :=
  [.Bold, .Dimmed, .Underline, .Reversed, .Italic, .Blink, .Hidden, .Strikethrough]

/-- Following the spec's words (§4.2), for comparison with `Colorizer.apply`:
wrap with each present visual attribute in the enumeration order
Bold..Strikethrough (skipping Clear), then wrap with the background escape,
then wrap with the foreground escape. -/
def renderSpecOrder (c : Colorizer) (input : List Char) : List Char :=
  let afterStyles := (VISUAL_STYLES.filter fun s =>
      c.style_const.isSome &&
        ((c.style_const.getD 0 &&& (1 <<< sytle_to_index s)) == (1 <<< sytle_to_index s))).foldl
    (fun out s => wrapCode (styleCode s) out) input
  let afterBg := match c.background with
    | some background_color => wrapCode (bgCode background_color) afterStyles
    | none => afterStyles
  match c.foreground with
  | some foreground_color => wrapCode (fgCode foreground_color) afterBg
  | none => afterBg

lemma foldl_stylizer_no_clear : ∀ (l : List Styles), Styles.Clear ∉ l → ∀ (t : List Char),
    l.foldl (fun out st => stylizer st out) t
      = l.foldl (fun out st => wrapCode (styleCode st) out) t := by
  intro l
  induction l with
  | nil => intro _ t; rfl
  | cons st rest ih =>
      intro h t
      rw [List.foldl_cons, List.foldl_cons]
      have hst : stylizer st t = wrapCode (styleCode st) t := by
        cases st
        case Clear => exact absurd (List.mem_cons_self _ _) h
        all_goals rfl
      rw [hst]
      exact ih (fun hm => h (List.mem_cons_of_mem _ hm)) _

/-- C6: the renderer wraps with the present attributes first (each one
independently, in the enumeration order Bold..Strikethrough, Clear skipped),
then with the background escape, then with the foreground escape, in exactly
that order; and a descriptor with no foreground, no background and an absent or
empty attribute set renders the text unchanged. -/
theorem c6_render_order_and_noop (c : Colorizer) (text : List Char) :
    c.apply text = renderSpecOrder c text
    ∧ (c.foreground = none → c.background = none →
        (c.style_const = none ∨ c.style_const = some 0) → c.apply text = text) := by
  obtain ⟨f, b, sc⟩ := c
  constructor
  · have hnotin : Styles.Clear ∉ VISUAL_STYLES.filter fun s =>
        sc.isSome && ((sc.getD 0 &&& (1 <<< sytle_to_index s)) == (1 <<< sytle_to_index s)) :=
      fun h => (by decide : Styles.Clear ∉ VISUAL_STYLES) (List.mem_filter.mp h).1
    have hfold : (STYLES.filter fun style =>
          sc.isSome && ((sc.getD 0 &&& (1 <<< sytle_to_index style)) == (1 <<< sytle_to_index style))).foldl
            (fun out s => stylizer s out) text
        = (VISUAL_STYLES.filter fun s =>
            sc.isSome && ((sc.getD 0 &&& (1 <<< sytle_to_index s)) == (1 <<< sytle_to_index s))).foldl
          (fun out s => wrapCode (styleCode s) out) text := by
      show (List.filter _ (Styles.Clear :: VISUAL_STYLES)).foldl _ text = _
      rw [List.filter_cons]
      split
      · rw [List.foldl_cons]
        exact foldl_stylizer_no_clear _ hnotin text
      · exact foldl_stylizer_no_clear _ hnotin text
    cases f <;> cases b <;>
      simp only [Colorizer.apply, renderSpecOrder, Colorizer.get_styles] <;> rw [hfold]
  · intro hf hb hsc
    subst hf hb
    rcases hsc with h | h <;> subst h <;> rfl

/-- C6 witness: the descriptor with both colors absent and an explicitly empty
attribute set leaves a concrete text unchanged. -/
theorem c6_render_order_and_noop_witness :
    (⟨none, none, some 0⟩ : Colorizer).foreground = none
    ∧ (⟨none, none, some 0⟩ : Colorizer).apply "ab".toList = "ab".toList :=
  ⟨rfl, (c6_render_order_and_noop ⟨none, none, some 0⟩ "ab".toList).2 rfl rfl (Or.inr rfl)⟩

end StringColorization
